import Mathlib

/-!
# s3scanner: candidate generation, concurrency budget, probing and collection

A shallow embedding of `main.go`.  Go strings are byte sequences, modelled as lists of
byte values; the goroutines of `main` are modelled as an interleaving step function on an
explicit state, driven by a list of scheduler choices.
-/

namespace S3Scanner

/-! ## Go strings -/

/-- A Go `string`: an immutable sequence of bytes (each entry is a byte value). -/
abbrev GoString := List Nat

/-- The bytes of a source literal (UTF-8 encoding of the literal's characters). -/
def str (s : String) : GoString :=
  s.toList.flatMap (fun c => (String.utf8EncodeChar c).map UInt8.toNat)

/-- The byte of `"."`, the separator handed to `strings.Split`. -/
def dot : Nat := 46

/-- The byte of `"-"`, the separator of the `%s-%s` formats. -/
def dash : Nat := 45

/-- The literal prefix `"https://"` of every format string of `main`. -/
def scheme : GoString := [104, 116, 116, 112, 115, 58, 47, 47]

/-- The literal tail `".s3.amazonaws.com/?uploads="` of every format string of `main`. -/
def tail_lit : GoString :=
  [46, 115, 51, 46, 97, 109, 97, 122, 111, 110, 97, 119, 115, 46, 99, 111, 109,
   47, 63, 117, 112, 108, 111, 97, 100, 115, 61]

/-- The call `fmt.Sprintf("https://%s.s3.amazonaws.com/?uploads=", a)` (line 201). -/
def sprintf1 (a : GoString) : GoString :=
  scheme ++ a ++ tail_lit

/-- The call `fmt.Sprintf("https://%s-%s.s3.amazonaws.com/?uploads=", a, b)`
(lines 203, 205). -/
def sprintf_dash (a b : GoString) : GoString :=
  scheme ++ a ++ [dash] ++ b ++ tail_lit

/-- The call `fmt.Sprintf("https://%s%s.s3.amazonaws.com/?uploads=", a, b)`
(lines 204, 206). -/
def sprintf_cat (a b : GoString) : GoString :=
  scheme ++ a ++ b ++ tail_lit

/-! ## `load_modifiers` (lines 136-169) -/

/-- The literals of the built-in modifier list (lines 152-167), in source order. -/
def default_modifier_literals : List String :=
  [
   "prod", "dev", "qa", "uat", "bucket", "files", "archives", "backup", "backups", "cdn", "test",
   "stage", "staging", "temp", "temporary", "public", "private", "media", "data", "logs", "images",
   "assets", "resources", "docs", "documents", "reports", "analytics", "static", "content",
   "uploads", "downloads", "scripts", "configs", "configurations", "settings", "release",
   "releases", "home", "app", "apps", "application", "applications", "code", "source", "sources",
   "library", "libraries", "repo", "repos", "repository", "repositories", "env", "environment",
   "environments", "db", "database", "databases", "cache", "caches", "archive", "archives",
   "backup", "backups", "cdn", "proxy", "proxies", "service", "services", "api", "apis", "v1",
   "v2", "v3", "main", "mainnet", "testnet", "development", "production", "integration", "live",
   "snapshot", "snapshots", "audit", "audits", "log", "logs", "metrics", "metric", "tracking",
   "tracker", "tracers", "trace", "traces", "user", "users", "account", "accounts", "session",
   "sessions", "activity", "activities", "event", "events", "transaction", "transactions",
   "billing", "invoice", "invoices", "customer", "customers", "client", "clients", "partner",
   "partners", "vendor", "vendors", "supplier", "suppliers", "inventory", "inventories", "order",
   "orders", "purchase", "purchases", "sale", "sales", "discount", "discounts", "coupon",
   "coupons", "offer", "offers", "deal", "deals", "promo", "promos", "promotion", "promotions"
  ]

/-- The built-in modifier list as Go strings. -/
def default_modifiers : List GoString :=
  default_modifier_literals.map str

/-- The function `load_modifiers`: with a modifiers file (its scanned lines are given), the lines are
appended to the initially empty global `modifiers`; without one, the built-in list. -/
def load_modifiers (modifiers_file : Option (List GoString)) : List GoString :=
  match modifiers_file with
  | some lines => lines.foldl (fun modifiers text => modifiers ++ [text]) []
  | none => default_modifiers

/-! ## The generation loop of `main` (lines 197-208) -/

/-- One iteration of the inner loop `for _, mod := range modifiers` (lines 203-206). -/
def append_modifier (word : GoString) (urls : List GoString) (mod : GoString) :
    List GoString :=
  let urls := urls ++ [sprintf_dash mod word]
  let urls := urls ++ [sprintf_cat mod word]
  let urls := urls ++ [sprintf_dash word mod]
  let urls := urls ++ [sprintf_cat word mod]
  urls

/-- One iteration of the outer loop `for scanner.Scan()` (lines 200-207). -/
def append_word (modifiers : List GoString) (urls : List GoString) (word : GoString) :
    List GoString :=
  let urls := urls ++ [sprintf1 word]
  modifiers.foldl (append_modifier word) urls

/-- The candidate list `urls` built by `main` from the scanned words. -/
def generate (words modifiers : List GoString) : List GoString :=
  words.foldl (append_word modifiers) []

/-! ## Bucket-name extraction of `check_url` (line 68) -/

/-- The call `strings.Split(s, sep)` for a one-byte separator: the substrings between the
occurrences of `sep`; a string without `sep` gives the one-element slice `[s]`. -/
def strings_Split (s : GoString) (sep : Nat) : List GoString :=
  match s with
  | [] => [[]]
  | c :: cs =>
    if c = sep then [] :: strings_Split cs sep
    else
      match strings_Split cs sep with
      | [] => [[c]]
      | seg :: rest => (c :: seg) :: rest

/-- The slice expression `s[k:]`: `none` stands for the run-time panic
"slice bounds out of range" raised when `k > len(s)`. -/
def slice_from (s : GoString) (k : Nat) : Option GoString :=
  if k ≤ s.length then some (s.drop k) else none

/-- The index expression `a[0]` on a slice of strings: `none` is the index panic. -/
def index0 (a : List GoString) : Option GoString :=
  a.head?

/-- The expression `strings.Split(url, ".")[0][8:]` (line 68). -/
def bucket_name (url : GoString) : Option GoString :=
  match index0 (strings_Split url dot) with
  | none => none
  | some first => slice_from first 8

/-! ## The candidate list in the words of the specification -/

/-- The candidate for a bucket name, in the words of the specification. -/
def candidate (s : GoString) : GoString :=
  str ("https://") ++ s ++ str (".s3.amazonaws.com/?uploads=")

/-- The four candidates of a word `w` and a modifier `d`: modifier before with separator,
modifier before concatenated, modifier after with separator, modifier after
concatenated. -/
def spec_variants (w d : GoString) : List GoString :=
  [candidate (d ++ str ("-") ++ w), candidate (d ++ w),
   candidate (w ++ str ("-") ++ d), candidate (w ++ d)]

/-- The block of a word: its base candidate, then the four variants per modifier. -/
def spec_block (ms : List GoString) (w : GoString) : List GoString :=
  candidate w :: ms.flatMap (spec_variants w)

/-- The candidate list as the specification describes it: one block per word, in
wordlist order. -/
def spec_candidates (ws ms : List GoString) : List GoString :=
  ws.flatMap (spec_block ms)

/-- The part of a string before its first occurrence of the byte `sep`
(the whole string when `sep` does not occur). -/
def before_first (sep : Nat) : GoString → GoString
  | [] => []
  | c :: cs => if c = sep then [] else c :: before_first sep cs

/-! ## The concurrency budget (lines 214-229) and the reporter's sample (line 118) -/

/-- Conversion to Go's 64-bit `int`: the value is reduced into `[-2^63, 2^63)`
(two's complement wrap-around of conversions and of `int` arithmetic). -/
def to_int (n : Int) : Int :=
  (n + 2 ^ 63) % 2 ^ 64 - 2 ^ 63

/-- The statement `max_threads := int(rlimit.Cur) - 10` (line 220); `rlimit.Cur` is a
`uint64`, converted to `int` before the subtraction. -/
def max_threads (rlimit_cur : Nat) : Int :=
  to_int (to_int (rlimit_cur : Int) - 10)

/-- The final value of the global `threads` (lines 220-223), from the value of the `-t`
flag and the soft limit `rlimit.Cur`; it is the capacity handed to `make` on line 229. -/
def resolve_threads (threads : Int) (rlimit_cur : Nat) : Int :=
  if threads > max_threads rlimit_cur then max_threads rlimit_cur else threads

/-- The statement `current_threads := threads - len(sem)` (line 118), the value printed
after `Current threads:`; `len_sem` is the number of elements buffered in `sem`. -/
def current_threads (threads : Int) (len_sem : Nat) : Int :=
  threads - (len_sem : Int)

/-! ## `check_url` (lines 50-78) -/

/-- What `http.Get` hands back to `check_url`: a transport error (`err != nil`) or a
response with its `StatusCode`. -/
inductive Outcome where
  | err
  | status (code : Nat)
deriving DecidableEq

/-- The constant `http.StatusOK`. -/
def StatusOK : Nat := 200

/-- The three global counters; they start at zero and are only changed by
`atomic.AddInt64(_, 1)`, at most once per candidate each. -/
structure Counters where
  total_requests : Int
  total_failures : Int
  total_successes : Int
deriving DecidableEq

/-- The counters at program start. -/
def Counters.zero : Counters :=
  ⟨0, 0, 0⟩

/-- The call `atomic.AddInt64(&total_requests, 1)` (line 64). -/
def Counters.add_request (k : Counters) : Counters :=
  { k with total_requests := k.total_requests + 1 }

/-- The call `atomic.AddInt64(&total_failures, 1)` (lines 54, 71). -/
def Counters.add_failure (k : Counters) : Counters :=
  { k with total_failures := k.total_failures + 1 }

/-- The call `atomic.AddInt64(&total_successes, 1)` (line 67). -/
def Counters.add_success (k : Counters) : Counters :=
  { k with total_successes := k.total_successes + 1 }

/-- The effects of one complete call of `check_url`: the counters afterwards, the bucket
name sent on `ch` (if any), and whether line 68 panicked. -/
structure CheckResult where
  counters : Counters
  sent : Option GoString
  panicked : Bool
deriving DecidableEq

/-- One call `check_url(url, ch, wg, verbose)` whose `http.Get(url)` returns `got`,
as a function of the counters it finds (the verbose print does not touch them). -/
def check_url (got : Outcome) (url : GoString) (k : Counters) : CheckResult :=
  match got with
  | .err => ⟨k.add_failure, none, false⟩
  | .status code =>
    let k := k.add_request
    if code = StatusOK then
      let k := k.add_success
      match bucket_name url with
      | some bucket => ⟨k, some bucket, false⟩
      | none => ⟨k, none, true⟩
    else
      ⟨k.add_failure, none, false⟩

/-- The counters after a sequence of completed probes, each given by its outcome and its
URL.  Every update is an atomic add of 1, so the final counters do not depend on how the
calls interleave. -/
def run_probes (probes : List (Outcome × GoString)) (k : Counters) : Counters :=
  probes.foldl (fun k p => (check_url p.1 p.2 k).counters) k

/-! ## The goroutines of `main` (lines 225-253) as an interleaving step function -/

/-- Where one worker goroutine (the closure of lines 236-239 running `check_url`) stands. -/
inductive Worker where
  /-- Line 52: inside `http.Get(url)`. -/
  | atGet (url : GoString)
  /-- Line 66: the response arrived and `total_requests` was incremented. -/
  | atStatus (url : GoString) (code : Nat)
  /-- Line 69: about to send the extracted bucket name on `ch`. -/
  | atSend (bucket : GoString)
  /-- Leaving `check_url`: the deferred `wg.Done()` (line 51) is still to run. -/
  | atDone
  /-- Back from `check_url`: the deferred `<-sem` (line 237) is still to run. -/
  | atRelease
  /-- The goroutine has ended. -/
  | exited
deriving DecidableEq

/-- Where the main goroutine stands from line 233 on. -/
inductive MainPc where
  /-- In the dispatch loop (lines 233-240). -/
  | dispatching
  /-- In `for bucket_name := range ch` (lines 248-253). -/
  | collecting
  /-- The loop over `ch` ended and `main` returned: the process is gone. -/
  | exited
deriving DecidableEq

/-- Where the goroutine of lines 242-246 stands. -/
inductive CloserPc where
  /-- Not started yet (`main` is still dispatching). -/
  | unborn
  /-- In `wg.Wait()`. -/
  | waiting
  /-- After `close(ch)`, with `close(stop)` still to run. -/
  | closing_stop
  /-- Ended. -/
  | finished
deriving DecidableEq

/-- The shared state of a run. -/
structure State where
  /-- The candidates the dispatch loop has not reached yet. -/
  pending : List GoString
  /-- One entry per spawned worker, in dispatch order. -/
  workers : List Worker
  main_pc : MainPc
  closer_pc : CloserPc
  /-- The value of `len(sem)`: the slots currently held. -/
  sem : Nat
  /-- The counter of the wait group `wg`. -/
  wg : Int
  /-- The buffer of `ch`, oldest first. -/
  ch : List GoString
  ch_closed : Bool
  stop_closed : Bool
  /-- The bucket names written to `out_file`, in order. -/
  written : List GoString
  counters : Counters
  /-- The number of sends `sem <- struct{}{}` performed so far. -/
  acquires : Nat
  /-- The number of receives `<-sem` performed so far. -/
  releases : Nat
  /-- A goroutine panicked: the process is gone. -/
  panicked : Bool
deriving DecidableEq

/-- What a run is given: the network's answer to each URL, the capacity of `sem`
(the resolved `threads`) and the candidate list `urls` (whose length is the capacity
of `ch`). -/
structure Config where
  get : GoString → Outcome
  threads : Nat
  urls : List GoString

/-- The state when `main` reaches line 233. -/
def init (cfg : Config) : State :=
  { pending := cfg.urls, workers := [], main_pc := .dispatching, closer_pc := .unborn,
    sem := 0, wg := 0, ch := [], ch_closed := false, stop_closed := false,
    written := [], counters := Counters.zero, acquires := 0, releases := 0,
    panicked := false }

/-- A choice of the scheduler: which goroutine takes its next step. -/
inductive Action where
  /-- One iteration of the dispatch loop: `wg.Add(1)`, `sem <- struct{}{}`, `go`. -/
  | dispatch
  /-- The dispatch loop ends; `main` starts the goroutine of lines 242-246. -/
  | start_closer
  /-- The next step of the goroutine of lines 242-246. -/
  | closer
  /-- One iteration of `for bucket_name := range ch`. -/
  | receive
  /-- The loop `range ch` finds the channel closed and empty; `main` returns. -/
  | finish
  /-- The next step of the `i`-th spawned worker. -/
  | worker (i : Nat)
deriving DecidableEq

/-- The next step of the `i`-th worker; `none` when it cannot move (it has ended, or it
is blocked on a channel).  A panic (line 68 out of range, a send on the closed `ch`, a
negative wait-group counter) ends the run at once: the panicking goroutine is on its
way out of `check_url`, and nothing is observed of the process afterwards. -/
def worker_step (cfg : Config) (s : State) (i : Nat) : Option State :=
  match s.workers[i]? with
  | none => none
  | some (.atGet url) =>
    match cfg.get url with
    | .err =>
      some { s with counters := s.counters.add_failure, workers := s.workers.set i .atDone }
    | .status code =>
      some { s with counters := s.counters.add_request,
                    workers := s.workers.set i (.atStatus url code) }
  | some (.atStatus url code) =>
    if code = StatusOK then
      match bucket_name url with
      | some bucket =>
        some { s with counters := s.counters.add_success,
                      workers := s.workers.set i (.atSend bucket) }
      | none =>
        some { s with counters := s.counters.add_success, panicked := true,
                      workers := s.workers.set i .atDone }
    else
      some { s with counters := s.counters.add_failure, workers := s.workers.set i .atDone }
  | some (.atSend bucket) =>
    if s.ch_closed then some { s with panicked := true }
    else if s.ch.length < cfg.urls.length then
      some { s with ch := s.ch ++ [bucket], workers := s.workers.set i .atDone }
    else none
  | some .atDone =>
    if s.wg ≤ 0 then some { s with panicked := true }
    else some { s with wg := s.wg - 1, workers := s.workers.set i .atRelease }
  | some .atRelease =>
    if 0 < s.sem then
      some { s with sem := s.sem - 1, releases := s.releases + 1,
                    workers := s.workers.set i .exited }
    else none
  | some .exited => none

/-- One step of the program under the scheduler's choice; `none` when the chosen
goroutine cannot move.  Nothing moves once a goroutine has panicked or `main` has
returned. -/
def step (cfg : Config) (s : State) (a : Action) : Option State :=
  if s.panicked = true ∨ s.main_pc = .exited then none
  else
    match a with
    | .dispatch =>
      match s.main_pc, s.pending with
      | .dispatching, url :: rest =>
        if s.sem < cfg.threads then
          some { s with pending := rest, wg := s.wg + 1, sem := s.sem + 1,
                        acquires := s.acquires + 1,
                        workers := s.workers ++ [.atGet url] }
        else none
      | _, _ => none
    | .start_closer =>
      if s.main_pc = .dispatching ∧ s.pending = [] then
        some { s with main_pc := .collecting, closer_pc := .waiting }
      else none
    | .closer =>
      match s.closer_pc with
      | .waiting =>
        if s.wg = 0 then
          if s.ch_closed then some { s with panicked := true }
          else some { s with ch_closed := true, closer_pc := .closing_stop }
        else none
      | .closing_stop => some { s with stop_closed := true, closer_pc := .finished }
      | _ => none
    | .receive =>
      match s.main_pc, s.ch with
      | .collecting, bucket :: rest =>
        some { s with ch := rest, written := s.written ++ [bucket] }
      | _, _ => none
    | .finish =>
      if s.main_pc = .collecting ∧ s.ch = [] ∧ s.ch_closed = true then
        some { s with main_pc := .exited }
      else none
    | .worker i => worker_step cfg s i

/-- The state after a schedule, if every chosen step could be taken. -/
def run (cfg : Config) (s : State) : List Action → Option State
  | [] => some s
  | a :: rest =>
    match step cfg s a with
    | none => none
    | some s' => run cfg s' rest

/-- The states a run of the program can be in. -/
def Reachable (cfg : Config) (s : State) : Prop :=
  ∃ schedule, run cfg (init cfg) schedule = some s

/-- The run is over: `main` has returned or a goroutine has panicked. -/
def State.terminated (s : State) : Prop :=
  s.main_pc = .exited ∨ s.panicked = true

/-- The value `display_stats` computes for `Current threads:` when it samples the state
(line 118, with `threads` the capacity of `sem`). -/
def sampled_current_threads (cfg : Config) (s : State) : Int :=
  current_threads (cfg.threads : Int) s.sem

/-- The bucket names of the candidates whose probe answers `200`, in candidate order. -/
def success_names (cfg : Config) : List GoString :=
  cfg.urls.filterMap (fun url =>
    if cfg.get url = .status StatusOK then bucket_name url else none)

/-! ## Quantities of a state used by the invariants -/

/-- The sum of `f` over a list. -/
def total {α : Type} (f : α → Nat) (l : List α) : Nat :=
  (l.map f).sum

/-- Whether a spawned worker still holds its slot (1) or has released it (0). -/
def Worker.holds : Worker → Nat
  | .exited => 0
  | _ => 1

/-- Whether a spawned worker has released its slot (1) or not (0). -/
def Worker.gone : Worker → Nat
  | .exited => 1
  | _ => 0

/-- Whether the worker's `wg.Done()` is still to come (1) or has run (0). -/
def Worker.undone : Worker → Nat
  | .atGet _ => 1
  | .atStatus _ _ => 1
  | .atSend _ => 1
  | .atDone => 1
  | _ => 0

/-- Whether the worker has incremented `total_successes` or `total_failures` (1) or
not yet (0). -/
def Worker.classified : Worker → Nat
  | .atGet _ => 0
  | .atStatus _ _ => 0
  | _ => 1

/-- Whether the worker is past line 69, the only send on `ch` (1), or not (0). -/
def Worker.past_send : Worker → Nat
  | .atGet _ => 0
  | .atStatus _ _ => 0
  | .atSend _ => 0
  | _ => 1

/-- An upper bound on the steps a worker, and the name it may send, still cause. -/
def Worker.rank : Worker → Nat
  | .atGet _ => 6
  | .atStatus _ _ => 5
  | .atSend _ => 4
  | .atDone => 2
  | .atRelease => 1
  | .exited => 0

/-- One if `x` is the bucket name `b`, else zero. -/
def hit (b x : GoString) : Nat :=
  if x = b then 1 else 0

/-- How often (0 or 1) a probe of `url` answered with `code` makes `check_url` send `b`. -/
def name_hit (b url : GoString) (code : Nat) : Nat :=
  if code = StatusOK then
    match bucket_name url with
    | some x => hit b x
    | none => 0
  else 0

/-- How often (0 or 1) the candidate `url` makes `check_url` send `b`. -/
def url_hit (cfg : Config) (b url : GoString) : Nat :=
  match cfg.get url with
  | .err => 0
  | .status code => name_hit b url code

/-- How often (0 or 1) the worker will still send `b` on `ch`. -/
def Worker.owes (cfg : Config) (b : GoString) : Worker → Nat
  | .atGet url => url_hit cfg b url
  | .atStatus url code => name_hit b url code
  | .atSend x => hit b x
  | _ => 0

/-- Progress left for `main` (while dispatching it still has to start the goroutine of
lines 242-246). -/
def MainPc.rank : MainPc → Nat
  | .dispatching => 4
  | .collecting => 1
  | .exited => 0

/-- Progress left for the goroutine of lines 242-246. -/
def CloserPc.rank : CloserPc → Nat
  | .unborn => 0
  | .waiting => 2
  | .closing_stop => 1
  | .finished => 0

/-- A bound on the number of steps a state can still take. -/
def State.fuel (s : State) : Nat :=
  7 * s.pending.length + total Worker.rank s.workers + s.ch.length
    + s.main_pc.rank + s.closer_pc.rank + (if s.panicked = true then 0 else 1)

/-- What a worker's program counter records about its candidate is true of the run. -/
def Worker.sound (cfg : Config) : Worker → Prop
  | .atGet url => url ∈ cfg.urls
  | .atStatus url code => url ∈ cfg.urls ∧ cfg.get url = .status code
  | _ => True

/-- The invariant of a run. -/
structure Inv (cfg : Config) (s : State) : Prop where
  sem_eq : s.sem = total Worker.holds s.workers
  sem_le : s.sem ≤ cfg.threads
  acquires_eq : s.acquires = s.workers.length
  releases_eq : s.releases = total Worker.gone s.workers
  wg_eq : s.wg = (total Worker.undone s.workers : Nat)
  counted : s.counters.total_successes + s.counters.total_failures
    = (total Worker.classified s.workers : Nat)
  flow : ∀ b, total (hit b) s.written + total (hit b) s.ch + total (Worker.owes cfg b) s.workers
    + total (url_hit cfg b) s.pending = total (url_hit cfg b) cfg.urls
  buffered : s.written.length + s.ch.length ≤ total Worker.past_send s.workers
  lengths : s.workers.length + s.pending.length = cfg.urls.length
  suffix : ∃ before, cfg.urls = before ++ s.pending
  sound : ∀ w ∈ s.workers, w.sound cfg
  closed : s.ch_closed = true → s.wg = 0 ∧ s.pending = []
  dispatching : s.main_pc = .dispatching → s.closer_pc = .unborn ∧ s.ch_closed = false
  collecting : s.main_pc ≠ .dispatching → s.pending = [] ∧ s.closer_pc ≠ .unborn
  waiting : s.closer_pc = .waiting → s.ch_closed = false
  late : s.closer_pc = .closing_stop ∨ s.closer_pc = .finished → s.ch_closed = true
  finished : s.main_pc = .exited → s.ch = [] ∧ s.ch_closed = true
  no_success : (∀ u ∈ cfg.urls, cfg.get u ≠ .status StatusOK) → s.counters.total_successes = 0

/-! ## A sample run -/

/-- Two candidates (words `a` and `b`, no modifiers) whose probes fail in transport, under
budget 2. -/
def two_failing : Config :=
  ⟨fun _ => Outcome.err, 2, generate [str ("a"), str ("b")] []⟩

/-- A schedule of `two_failing`: both candidates are dispatched, `main` starts the closing
goroutine, the first worker runs to its end (`http.Get` fails, `wg.Done()`, `<-sem`), the
second up to `wg.Done()`, and the closing goroutine closes `ch`. -/
def until_close : List Action :=
  [.dispatch, .dispatch, .start_closer, .worker 0, .worker 0, .worker 0,
   .worker 1, .worker 1, .closer]

/-- The state `until_close` leads to: `ch` is closed, both slots were acquired, the first
worker has released its slot and the second still holds it. -/
def at_close : State :=
  { pending := [], workers := [.exited, .atRelease], main_pc := .collecting,
    closer_pc := .closing_stop, sem := 1, wg := 0, ch := [], ch_closed := true,
    stop_closed := false, written := [], counters := ⟨0, 2, 0⟩, acquires := 2,
    releases := 1, panicked := false }
/-! ## Candidate generation -/

theorem str_scheme : str ("https://") = scheme := by decide

theorem str_tail : str (".s3.amazonaws.com/?uploads=") = tail_lit := by decide

theorem str_dash : str ("-") = [dash] := by decide

theorem sprintf1_eq (a : GoString) : sprintf1 a = candidate a := by
  simp [sprintf1, candidate, str_scheme, str_tail]

theorem sprintf_dash_eq (a b : GoString) :
    sprintf_dash a b = candidate (a ++ str ("-") ++ b) := by
  simp [sprintf_dash, candidate, str_scheme, str_tail, str_dash]

theorem sprintf_cat_eq (a b : GoString) : sprintf_cat a b = candidate (a ++ b) := by
  simp [sprintf_cat, candidate, str_scheme, str_tail]

theorem foldl_append_modifier (w : GoString) (ms : List GoString) (acc : List GoString) :
    ms.foldl (append_modifier w) acc = acc ++ ms.flatMap (spec_variants w) := by
  induction ms generalizing acc with
  | nil => simp
  | cons d ds ih =>
    simp [List.foldl_cons, ih, append_modifier, spec_variants, sprintf_dash_eq, sprintf_cat_eq]

theorem append_word_eq (ms : List GoString) (acc : List GoString) (w : GoString) :
    append_word ms acc w = acc ++ spec_block ms w := by
  simp [append_word, foldl_append_modifier, spec_block, sprintf1_eq]

theorem foldl_append_word (ms ws : List GoString) (acc : List GoString) :
    ws.foldl (append_word ms) acc = acc ++ spec_candidates ws ms := by
  induction ws generalizing acc with
  | nil => simp [spec_candidates]
  | cons w ws ih =>
    simp [List.foldl_cons, ih, append_word_eq, spec_candidates]

theorem generate_eq_spec (ws ms : List GoString) : generate ws ms = spec_candidates ws ms := by
  simp [generate, foldl_append_word]

theorem length_spec_block (ms : List GoString) (w : GoString) :
    (spec_block ms w).length = 1 + 4 * ms.length := by
  induction ms with
  | nil => simp [spec_block]
  | cons d ds ih =>
    simp [spec_block, spec_variants] at ih ⊢
    omega

theorem length_spec_candidates (ws ms : List GoString) :
    (spec_candidates ws ms).length = ws.length * (1 + 4 * ms.length) := by
  induction ws with
  | nil => simp [spec_candidates]
  | cons w ws ih =>
    simp only [spec_candidates, List.flatMap_cons, List.length_append, length_spec_block,
      List.length_cons] at ih ⊢
    rw [ih]; ring

theorem strings_Split_head (s : GoString) (sep : Nat) :
    ∃ rest, strings_Split s sep = before_first sep s :: rest := by
  induction s with
  | nil => exact ⟨[], rfl⟩
  | cons c cs ih =>
    obtain ⟨rest, h⟩ := ih
    by_cases hc : c = sep
    · exact ⟨strings_Split cs sep, by simp [strings_Split, before_first, hc]⟩
    · exact ⟨rest, by simp [strings_Split, before_first, hc, h]⟩

theorem before_first_append_tail (s : GoString) :
    before_first dot (s ++ tail_lit) = before_first dot s := by
  induction s with
  | nil => simp [tail_lit, dot, before_first]
  | cons c cs ih =>
    by_cases hc : c = dot
    · simp [before_first, hc]
    · simp [before_first, hc, ih]

theorem before_first_scheme (t : GoString) :
    before_first dot (scheme ++ t) = scheme ++ before_first dot t := by
  simp [scheme, dot, before_first]

theorem candidate_eq (s : GoString) : candidate s = scheme ++ (s ++ tail_lit) := by
  simp [candidate, str_scheme, str_tail]

theorem strings_Split_candidate (s : GoString) :
    ∃ rest, strings_Split (candidate s) dot = (scheme ++ before_first dot s) :: rest := by
  obtain ⟨rest, h⟩ := strings_Split_head (candidate s) dot
  refine ⟨rest, ?_⟩
  rw [h, candidate_eq, before_first_scheme, before_first_append_tail]

theorem bucket_name_candidate (s : GoString) :
    bucket_name (candidate s) = some (before_first dot s) := by
  obtain ⟨rest, h⟩ := strings_Split_candidate s
  simp [bucket_name, index0, h, slice_from, scheme]

theorem mem_spec_candidates {ws ms : List GoString} {u : GoString}
    (h : u ∈ spec_candidates ws ms) : ∃ s, u = candidate s := by
  simp only [spec_candidates, spec_block, spec_variants, List.mem_flatMap, List.mem_cons,
    List.mem_singleton, List.not_mem_nil, or_false] at h
  obtain ⟨w, -, h | ⟨d, -, h | h | h | h⟩⟩ := h <;> exact ⟨_, h⟩

theorem mem_generate {ws ms : List GoString} {u : GoString}
    (h : u ∈ generate ws ms) : ∃ s, u = candidate s := by
  rw [generate_eq_spec] at h
  exact mem_spec_candidates h

theorem before_first_of_not_mem (s : GoString) (h : dot ∉ s) :
    before_first dot s = s := by
  induction s with
  | nil => rfl
  | cons c cs ih =>
    simp only [List.mem_cons, not_or] at h
    have hc : ¬ c = dot := fun e => h.1 e.symm
    simp [before_first, hc, ih h.2]

theorem bucket_name_generate {ws ms : List GoString} {u : GoString}
    (h : u ∈ generate ws ms) : ∃ b, bucket_name u = some b := by
  obtain ⟨s, rfl⟩ := mem_generate h
  exact ⟨_, bucket_name_candidate s⟩

/-! ## The concurrency budget -/

theorem to_int_of_range {n : Int} (h0 : -(2 ^ 63) ≤ n) (h1 : n < 2 ^ 63) : to_int n = n := by
  unfold to_int
  omega

theorem max_threads_of_lt {c : Nat} (hc : c < 2 ^ 63) : max_threads c = (c : Int) - 10 := by
  unfold max_threads
  have h1 : to_int (c : Int) = c := to_int_of_range (by omega) (by omega)
  rw [h1]
  exact to_int_of_range (by omega) (by omega)

theorem max_threads_le (c : Nat) : max_threads c ≤ (c : Int) - 10 := by
  unfold max_threads to_int
  omega

theorem resolve_threads_eq_min (r : Int) (c : Nat) :
    resolve_threads r c = min r (max_threads c) := by
  unfold resolve_threads
  split <;> omega

/-! ## The counters of `check_url` -/

theorem check_url_counters (got : Outcome) (url : GoString) (k : Counters) :
    ((check_url got url k).counters.total_successes = k.total_successes + 1 ∧
      (check_url got url k).counters.total_failures = k.total_failures ∧
      got = .status StatusOK) ∨
    ((check_url got url k).counters.total_successes = k.total_successes ∧
      (check_url got url k).counters.total_failures = k.total_failures + 1 ∧
      got ≠ .status StatusOK) := by
  cases got with
  | err => right; simp [check_url, Counters.add_failure]
  | status code =>
    by_cases hc : code = StatusOK
    · left
      subst hc
      cases hb : bucket_name url <;>
        simp [check_url, hb, Counters.add_success, Counters.add_request]
    · right
      simp [check_url, hc, Counters.add_failure, Counters.add_request]

theorem run_probes_sum (probes : List (Outcome × GoString)) (k : Counters) :
    (run_probes probes k).total_successes + (run_probes probes k).total_failures
      = k.total_successes + k.total_failures + probes.length := by
  induction probes generalizing k with
  | nil => simp [run_probes]
  | cons p ps ih =>
    have h := check_url_counters p.1 p.2 k
    have ih' := ih (check_url p.1 p.2 k).counters
    simp only [run_probes, List.foldl_cons, List.length_cons, Nat.cast_add, Nat.cast_one]
      at ih' ⊢
    omega

theorem run_probes_all_fail (probes : List (Outcome × GoString)) (k : Counters)
    (h : ∀ p ∈ probes, p.1 ≠ .status StatusOK) :
    (run_probes probes k).total_successes = k.total_successes := by
  induction probes generalizing k with
  | nil => simp [run_probes]
  | cons p ps ih =>
    have hp := check_url_counters p.1 p.2 k
    have h1 : p.1 ≠ .status StatusOK := h p (List.mem_cons_self _ _)
    have ih' := ih (check_url p.1 p.2 k).counters
      (fun q hq => h q (List.mem_cons_of_mem _ hq))
    simp only [run_probes, List.foldl_cons] at ih' ⊢
    rcases hp with ⟨_, _, h3⟩ | ⟨h2, _, _⟩
    · exact absurd h3 h1
    · omega


/-! ## Sums over the workers -/

@[simp]
theorem total_nil {α : Type} (f : α → Nat) : total f [] = 0 := rfl

@[simp]
theorem total_cons {α : Type} (f : α → Nat) (a : α) (l : List α) :
    total f (a :: l) = f a + total f l := by
  simp [total]

@[simp]
theorem total_append {α : Type} (f : α → Nat) (l₁ l₂ : List α) :
    total f (l₁ ++ l₂) = total f l₁ + total f l₂ := by
  simp [total]

theorem total_set {α : Type} (f : α → Nat) {l : List α} {i : Nat} {a : α}
    (h : l[i]? = some a) (b : α) : total f (l.set i b) + f a = total f l + f b := by
  induction l generalizing i with
  | nil => simp at h
  | cons x xs ih =>
    cases i with
    | zero =>
      simp at h
      subst h
      simp
      omega
    | succ j =>
      simp at h
      have := ih h
      simp
      omega

theorem exists_of_total_pos {α : Type} (f : α → Nat) {l : List α} (h : 0 < total f l) :
    ∃ (i : Nat) (a : α), l[i]? = some a ∧ 0 < f a := by
  induction l with
  | nil => simp at h
  | cons x xs ih =>
    by_cases hx : 0 < f x
    · exact ⟨0, x, by simp, hx⟩
    · have h' : 0 < total f xs := by
        simp at h
        omega
      obtain ⟨i, a, hi, ha⟩ := ih h'
      exact ⟨i + 1, a, by simpa using hi, ha⟩

theorem mem_of_getElem? {α : Type} {l : List α} {i : Nat} {a : α} (h : l[i]? = some a) :
    a ∈ l := by
  rw [List.getElem?_eq_some_iff] at h
  obtain ⟨hi, rfl⟩ := h
  exact List.getElem_mem hi

theorem sound_set {cfg : Config} {ws : List Worker} {i : Nat} {w' : Worker}
    (h : ∀ w ∈ ws, w.sound cfg) (hw : w'.sound cfg) : ∀ w ∈ ws.set i w', w.sound cfg := by
  intro w hmem
  rcases List.mem_or_eq_of_mem_set hmem with h1 | h1
  · exact h w h1
  · rw [h1]; exact hw

theorem inv_init (cfg : Config) : Inv cfg (init cfg) := by
  constructor <;> simp [init, Counters.zero]


theorem inv_worker_update {cfg : Config} {s s' : State} {i : Nat} {w w' : Worker}
    (hinv : Inv cfg s) (hi : s.workers[i]? = some w)
    (hws : s'.workers = s.workers.set i w')
    (hpending : s'.pending = s.pending) (hmain : s'.main_pc = s.main_pc)
    (hcloser : s'.closer_pc = s.closer_pc) (hclosed : s'.ch_closed = s.ch_closed)
    (hacq : s'.acquires = s.acquires) (hwritten : s'.written = s.written)
    (hsem : s'.sem + w.holds = s.sem + w'.holds) (hsem_le : s'.sem ≤ s.sem)
    (hrel : s'.releases + w.gone = s.releases + w'.gone)
    (hwg : s'.wg + (w.undone : Nat) = s.wg + (w'.undone : Nat))
    (hcount : s'.counters.total_successes + s'.counters.total_failures + (w.classified : Nat)
      = s.counters.total_successes + s.counters.total_failures + (w'.classified : Nat))
    (hflow : ∀ b, total (hit b) s'.ch + w'.owes cfg b = total (hit b) s.ch + w.owes cfg b)
    (hbuf : s'.ch.length + w.past_send ≤ s.ch.length + w'.past_send)
    (hsound : w.sound cfg → w'.sound cfg)
    (hkeep : s.ch_closed = true → s'.wg = s.wg) (hlive : s.main_pc ≠ .exited)
    (hsucc : (∀ u ∈ cfg.urls, cfg.get u ≠ .status StatusOK) → w.sound cfg →
      s'.counters.total_successes = s.counters.total_successes) : Inv cfg s' := by
  obtain ⟨sem_eq, sem_le, acq, rel, wg_eq, counted, flow, buffered, lengths, ⟨before, hsuf⟩, sound,
    closed, disp, coll, waiting, late, fin, nosucc⟩ := hinv
  have hH := total_set Worker.holds hi w'
  have hG := total_set Worker.gone hi w'
  have hU := total_set Worker.undone hi w'
  have hC := total_set Worker.classified hi w'
  have hP := total_set Worker.past_send hi w'
  refine ⟨?_, ?_, ?_, ?_, ?_, ?_, ?_, ?_, ?_, ?_, ?_, ?_, ?_, ?_, ?_, ?_, ?_, ?_⟩
  · rw [hws]; omega
  · omega
  · rw [hws, hacq, acq]; simp
  · rw [hws]; omega
  · rw [hws]; omega
  · rw [hws]; omega
  · intro b
    have hb := flow b
    have hO := total_set (Worker.owes cfg b) hi w'
    have hf := hflow b
    rw [hws, hpending, hwritten]
    omega
  · rw [hws, hwritten]; omega
  · rw [hws, hpending]; simpa using lengths
  · exact ⟨before, by rw [hpending]; exact hsuf⟩
  · rw [hws]
    exact sound_set sound (hsound (sound w (mem_of_getElem? hi)))
  · intro hc
    rw [hclosed] at hc
    rw [hpending, hkeep hc]
    exact closed hc
  · rw [hmain, hcloser, hclosed]; exact disp
  · rw [hmain, hcloser, hpending]; exact coll
  · rw [hcloser, hclosed]; exact waiting
  · rw [hcloser, hclosed]; exact late
  · intro hm
    rw [hmain] at hm
    exact absurd hm hlive
  · intro hall
    rw [hsucc hall (sound w (mem_of_getElem? hi))]
    exact nosucc hall

theorem inv_step {cfg : Config} {s s' : State} {a : Action}
    (hinv : Inv cfg s) (h : step cfg s a = some s') : Inv cfg s' := by
  obtain ⟨sem_eq, sem_le, acq, rel, wg_eq, counted, flow, buffered, lengths, ⟨before, hsuf⟩, sound,
    closed, disp, coll, waiting, late, fin, nosucc⟩ := hinv
  unfold step at h
  split at h
  · simp at h
  · rename_i hlive
    have hfin : s.main_pc = .exited → s.ch = [] ∧ s.ch_closed = true :=
      fun hm => absurd (Or.inr hm) hlive
    cases a with
    | dispatch =>
      simp only at h
      split at h
      · rename_i url rest hm hp
        split at h
        · rename_i hlt
          simp only [Option.some.injEq] at h
          subst h
          have hd := disp hm
          refine ⟨?_, ?_, ?_, ?_, ?_, ?_, ?_, ?_, ?_, ?_, ?_, ?_, ?_, ?_, ?_, ?_, hfin, nosucc⟩
          · simp [sem_eq, Worker.holds]
          · show s.sem + 1 ≤ cfg.threads
            omega
          · simp [acq]
          · simp [rel, Worker.gone]
          · simp [wg_eq, Worker.undone]
          · simp [counted, Worker.classified]
          · intro b
            have hb := flow b
            rw [hp] at hb
            simp [Worker.owes] at hb ⊢
            omega
          · simp [Worker.past_send]
            exact buffered
          · rw [hp] at lengths
            simp at lengths ⊢
            omega
          · exact ⟨before ++ [url], by simp [hsuf, hp]⟩
          · intro w hw
            simp only [List.mem_append, List.mem_singleton] at hw
            rcases hw with hw | rfl
            · exact sound w hw
            · show url ∈ cfg.urls
              rw [hsuf, hp]
              simp
          · intro hc
            simp [hd.2] at hc
          · exact disp
          · intro hne
            exact absurd hm hne
          · exact waiting
          · exact late
        · simp at h
      · simp at h
    | start_closer =>
      simp only at h
      split at h
      · rename_i hc
        simp only [Option.some.injEq] at h
        subst h
        have hd := disp hc.1
        refine ⟨sem_eq, sem_le, acq, rel, wg_eq, counted, flow, buffered, lengths, ⟨before, hsuf⟩, sound,
          closed, ?_, ?_, ?_, ?_, ?_, nosucc⟩
        · intro hm
          simp at hm
        · intro _
          exact ⟨hc.2, by simp⟩
        · intro _
          exact hd.2
        · intro hl
          simp at hl
        · intro hm
          simp at hm
      · simp at h
    | closer =>
      simp only at h
      split at h
      · rename_i hw
        split at h
        · rename_i hwg
          split at h
          · rename_i hcl
            simp only [Option.some.injEq] at h
            subst h
            exact ⟨sem_eq, sem_le, acq, rel, wg_eq, counted, flow, buffered, lengths, ⟨before, hsuf⟩,
              sound, closed, disp, coll, waiting, late, hfin, nosucc⟩
          · simp only [Option.some.injEq] at h
            subst h
            have hnd : s.main_pc ≠ .dispatching := by
              intro hm
              have := (disp hm).1
              rw [hw] at this
              simp at this
            refine ⟨sem_eq, sem_le, acq, rel, wg_eq, counted, flow, buffered, lengths, ⟨before, hsuf⟩,
              sound, ?_, ?_, ?_, ?_, ?_, ?_, nosucc⟩
            · intro _
              exact ⟨hwg, (coll hnd).1⟩
            · intro hm
              exact absurd hm hnd
            · intro _
              exact ⟨(coll hnd).1, by simp⟩
            · intro hc
              simp at hc
            · intro _
              rfl
            · exact fun hm => absurd (Or.inr hm) hlive
        · simp at h
      · rename_i hw
        simp only [Option.some.injEq] at h
        subst h
        have hcl := late (Or.inl hw)
        have hnd : s.main_pc ≠ .dispatching := by
          intro hm
          have := (disp hm).1
          rw [hw] at this
          simp at this
        refine ⟨sem_eq, sem_le, acq, rel, wg_eq, counted, flow, buffered, lengths, ⟨before, hsuf⟩,
          sound, closed, ?_, ?_, ?_, ?_, hfin, nosucc⟩
        · intro hm
          exact absurd hm hnd
        · intro _
          exact ⟨(coll hnd).1, by simp⟩
        · intro hc
          simp at hc
        · intro _
          exact hcl
      · simp at h
    | receive =>
      simp only at h
      split at h
      · rename_i bucket rest hm hch
        simp only [Option.some.injEq] at h
        subst h
        refine ⟨sem_eq, sem_le, acq, rel, wg_eq, counted, ?_, ?_, lengths, ⟨before, hsuf⟩,
          sound, closed, disp, coll, waiting, late, ?_, nosucc⟩
        · intro b
          have hb := flow b
          rw [hch] at hb
          simp at hb ⊢
          omega
        · rw [hch] at buffered
          simp at buffered ⊢
          omega
        · exact fun hm => absurd (Or.inr hm) hlive
      · simp at h
    | finish =>
      simp only at h
      split at h
      · rename_i hc
        simp only [Option.some.injEq] at h
        subst h
        have hnd : s.main_pc ≠ .dispatching := by
          rw [hc.1]
          simp
        refine ⟨sem_eq, sem_le, acq, rel, wg_eq, counted, flow, buffered, lengths, ⟨before, hsuf⟩,
          sound, closed, ?_, ?_, waiting, late, ?_, nosucc⟩
        · intro hm
          simp at hm
        · intro _
          exact coll hnd
        · intro _
          exact ⟨hc.2.1, hc.2.2⟩
      · simp at h
    | worker i =>
      have hinv : Inv cfg s := ⟨sem_eq, sem_le, acq, rel, wg_eq, counted, flow, buffered, lengths,
        ⟨before, hsuf⟩, sound, closed, disp, coll, waiting, late, fin, nosucc⟩
      have hne : s.main_pc ≠ .exited := fun hm => hlive (Or.inr hm)
      simp only at h
      unfold worker_step at h
      split at h
      · simp at h
      · rename_i url hi
        split at h
        · rename_i hget
          simp only [Option.some.injEq] at h
          subst h
          refine inv_worker_update hinv hi rfl rfl rfl rfl rfl rfl rfl ?_ ?_ ?_ ?_ ?_ ?_ ?_ ?_ ?_ hne ?_
          all_goals
            simp [Worker.holds, Worker.gone, Worker.undone, Worker.classified, Worker.owes, Worker.past_send,
              Worker.sound, Counters.add_failure, url_hit, hget]
          omega
        · rename_i code hget
          simp only [Option.some.injEq] at h
          subst h
          refine inv_worker_update hinv hi rfl rfl rfl rfl rfl rfl rfl ?_ ?_ ?_ ?_ ?_ ?_ ?_ ?_ ?_ hne ?_
          all_goals
            simp [Worker.holds, Worker.gone, Worker.undone, Worker.classified, Worker.owes, Worker.past_send,
              Worker.sound, Counters.add_request, url_hit, hget]
      · rename_i url code hi
        split at h
        · rename_i hcode
          split at h
          · rename_i bucket hb
            simp only [Option.some.injEq] at h
            subst h
            refine inv_worker_update hinv hi rfl rfl rfl rfl rfl rfl rfl ?_ ?_ ?_ ?_ ?_ ?_ ?_ ?_ ?_ hne ?_
            all_goals
              simp [Worker.holds, Worker.gone, Worker.undone, Worker.classified, Worker.owes, Worker.past_send,
                Worker.sound, Counters.add_success, name_hit, hcode, hb]
            · omega
            · exact fun hall hu => hall url hu
          · rename_i hb
            simp only [Option.some.injEq] at h
            subst h
            refine inv_worker_update hinv hi rfl rfl rfl rfl rfl rfl rfl ?_ ?_ ?_ ?_ ?_ ?_ ?_ ?_ ?_ hne ?_
            all_goals
              simp [Worker.holds, Worker.gone, Worker.undone, Worker.classified, Worker.owes, Worker.past_send,
                Worker.sound, Counters.add_success, name_hit, hcode, hb]
            · omega
            · exact fun hall hu => hall url hu
        · rename_i hcode
          simp only [Option.some.injEq] at h
          subst h
          refine inv_worker_update hinv hi rfl rfl rfl rfl rfl rfl rfl ?_ ?_ ?_ ?_ ?_ ?_ ?_ ?_ ?_ hne ?_
          all_goals
            simp [Worker.holds, Worker.gone, Worker.undone, Worker.classified, Worker.owes, Worker.past_send,
              Worker.sound, Counters.add_failure, name_hit, hcode]
          omega
      · rename_i bucket hi
        split at h
        · simp only [Option.some.injEq] at h
          subst h
          exact ⟨sem_eq, sem_le, acq, rel, wg_eq, counted, flow, buffered, lengths, ⟨before, hsuf⟩,
            sound, closed, disp, coll, waiting, late, fin, nosucc⟩
        · split at h
          · simp only [Option.some.injEq] at h
            subst h
            refine inv_worker_update hinv hi rfl rfl rfl rfl rfl rfl rfl ?_ ?_ ?_ ?_ ?_ ?_ ?_ ?_ ?_ hne ?_
            all_goals
              simp [Worker.holds, Worker.gone, Worker.undone, Worker.classified, Worker.owes, Worker.past_send,
                Worker.sound]
          · simp at h
      · rename_i hi
        split at h
        · simp only [Option.some.injEq] at h
          subst h
          exact ⟨sem_eq, sem_le, acq, rel, wg_eq, counted, flow, buffered, lengths, ⟨before, hsuf⟩,
            sound, closed, disp, coll, waiting, late, fin, nosucc⟩
        · rename_i hwg
          simp only [Option.some.injEq] at h
          subst h
          refine inv_worker_update hinv hi rfl rfl rfl rfl rfl rfl rfl ?_ ?_ ?_ ?_ ?_ ?_ ?_ ?_ ?_ hne ?_
          all_goals
            simp [Worker.holds, Worker.gone, Worker.undone, Worker.classified, Worker.owes, Worker.past_send,
              Worker.sound]
          cases hc : s.ch_closed with
          | false => rfl
          | true =>
            have := (closed hc).1
            omega
      · rename_i hi
        split at h
        · rename_i hsem
          simp only [Option.some.injEq] at h
          subst h
          refine inv_worker_update hinv hi rfl rfl rfl rfl rfl rfl rfl ?_ ?_ ?_ ?_ ?_ ?_ ?_ ?_ ?_ hne ?_
          all_goals
            simp [Worker.holds, Worker.gone, Worker.undone, Worker.classified, Worker.owes, Worker.past_send,
              Worker.sound]
          omega
        · simp at h
      · simp at h


/-! ## Runs -/

theorem inv_run {cfg : Config} {s s' : State} {schedule : List Action}
    (hinv : Inv cfg s) (h : run cfg s schedule = some s') : Inv cfg s' := by
  induction schedule generalizing s with
  | nil =>
    simp only [run, Option.some.injEq] at h
    exact h ▸ hinv
  | cons a rest ih =>
    simp only [run] at h
    split at h
    · simp at h
    · rename_i s₁ hs₁
      exact ih (inv_step hinv hs₁) h

theorem inv_reachable {cfg : Config} {s : State} (h : Reachable cfg s) : Inv cfg s := by
  obtain ⟨schedule, hs⟩ := h
  exact inv_run (inv_init cfg) hs

theorem step_live {cfg : Config} {s s' : State} {a : Action}
    (h : step cfg s a = some s') : s.panicked = false ∧ s.main_pc ≠ .exited := by
  unfold step at h
  split at h
  · simp at h
  · rename_i hl
    simp only [not_or] at hl
    exact ⟨by simpa using hl.1, hl.2⟩

theorem total_rank_set {ws : List Worker} {i : Nat} {w : Worker}
    (hi : ws[i]? = some w) (w' : Worker) :
    total Worker.rank (ws.set i w') + w.rank = total Worker.rank ws + w'.rank :=
  total_set Worker.rank hi w'

theorem step_fuel {cfg : Config} {s s' : State} {a : Action}
    (h : step cfg s a = some s') : s'.fuel < s.fuel := by
  have hp := (step_live h).1
  unfold step at h
  split at h
  · simp at h
  · cases a with
    | dispatch =>
      simp only at h
      split at h
      · rename_i url rest hm hpd
        split at h
        · simp only [Option.some.injEq] at h
          subst h
          simp [State.fuel, hpd, Worker.rank]
          omega
        · simp at h
      · simp at h
    | start_closer =>
      simp only at h
      split at h
      · rename_i hc
        simp only [Option.some.injEq] at h
        subst h
        simp [State.fuel, hc.1, MainPc.rank, CloserPc.rank]
        omega
      · simp at h
    | closer =>
      simp only at h
      split at h
      · rename_i hw
        split at h
        · split at h
          · simp only [Option.some.injEq] at h
            subst h
            simp [State.fuel, hp]
          · simp only [Option.some.injEq] at h
            subst h
            simp [State.fuel, hw, CloserPc.rank]
        · simp at h
      · rename_i hw
        simp only [Option.some.injEq] at h
        subst h
        simp [State.fuel, hw, CloserPc.rank]
      · simp at h
    | receive =>
      simp only at h
      split at h
      · rename_i bucket rest hm hch
        simp only [Option.some.injEq] at h
        subst h
        simp [State.fuel, hch]
      · simp at h
    | finish =>
      simp only at h
      split at h
      · rename_i hc
        simp only [Option.some.injEq] at h
        subst h
        simp [State.fuel, hc.1, MainPc.rank]
      · simp at h
    | worker i =>
      simp only at h
      unfold worker_step at h
      split at h
      · simp at h
      · rename_i url hi
        split at h
        all_goals
          simp only [Option.some.injEq] at h
          subst h
          have := total_rank_set hi
          simp [State.fuel, Worker.rank] at this ⊢
          first
            | (have h1 := this .atDone; simp [Worker.rank] at h1; omega)
            | (have h1 := this (.atStatus url ‹_›); simp [Worker.rank] at h1; omega)
      · rename_i url code hi
        split at h
        · split at h
          all_goals
            simp only [Option.some.injEq] at h
            subst h
            have := total_rank_set hi
            simp [State.fuel, Worker.rank, hp] at this ⊢
            first
              | (have h1 := this .atDone; simp [Worker.rank] at h1; omega)
              | (have h1 := this (.atSend ‹_›); simp [Worker.rank] at h1; omega)
        · simp only [Option.some.injEq] at h
          subst h
          have h1 := total_rank_set hi .atDone
          simp [State.fuel, Worker.rank] at h1 ⊢
          omega
      · rename_i bucket hi
        split at h
        · simp only [Option.some.injEq] at h
          subst h
          simp [State.fuel, hp]
        · split at h
          · simp only [Option.some.injEq] at h
            subst h
            have h1 := total_rank_set hi .atDone
            simp [State.fuel, Worker.rank] at h1 ⊢
            omega
          · simp at h
      · rename_i hi
        split at h
        · simp only [Option.some.injEq] at h
          subst h
          simp [State.fuel, hp]
        · simp only [Option.some.injEq] at h
          subst h
          have h1 := total_rank_set hi .atRelease
          simp [State.fuel, Worker.rank] at h1 ⊢
          omega
      · rename_i hi
        split at h
        · simp only [Option.some.injEq] at h
          subst h
          have h1 := total_rank_set hi .exited
          simp [State.fuel, Worker.rank] at h1 ⊢
          omega
        · simp at h
      · simp at h


/-! ## No panic, no deadlock -/

theorem le_total {α : Type} (f : α → Nat) {l : List α} {i : Nat} {a : α}
    (h : l[i]? = some a) : f a ≤ total f l := by
  induction l generalizing i with
  | nil => simp at h
  | cons x xs ih =>
    cases i with
    | zero =>
      simp at h
      subst h
      simp
    | succ k =>
      simp at h
      have := ih h
      simp
      omega

theorem total_le_length {α : Type} (f : α → Nat) (hf : ∀ a, f a ≤ 1) (l : List α) :
    total f l ≤ l.length := by
  induction l with
  | nil => simp
  | cons x xs ih =>
    have := hf x
    simp
    omega

theorem undone_pos_wg {cfg : Config} {s : State} {i : Nat} {w : Worker}
    (hinv : Inv cfg s) (hi : s.workers[i]? = some w) (hw : w.undone = 1) : 0 < s.wg := by
  have h1 := le_total Worker.undone hi
  have h2 := hinv.wg_eq
  omega

theorem step_no_panic {cfg : Config} {s s' : State} {a : Action}
    (hinv : Inv cfg s) (hx : ∀ u ∈ cfg.urls, ∃ b, bucket_name u = some b)
    (h : step cfg s a = some s') : s'.panicked = false := by
  have hp := (step_live h).1
  unfold step at h
  split at h
  · simp at h
  · cases a with
    | dispatch =>
      simp only at h
      split at h
      · split at h
        · simp only [Option.some.injEq] at h
          subst h
          exact hp
        · simp at h
      · simp at h
    | start_closer =>
      simp only at h
      split at h
      · simp only [Option.some.injEq] at h
        subst h
        exact hp
      · simp at h
    | closer =>
      simp only at h
      split at h
      · rename_i hw
        split at h
        · split at h
          · rename_i hcl
            have := hinv.waiting hw
            rw [hcl] at this
            simp at this
          · simp only [Option.some.injEq] at h
            subst h
            exact hp
        · simp at h
      · simp only [Option.some.injEq] at h
        subst h
        exact hp
      · simp at h
    | receive =>
      simp only at h
      split at h
      · simp only [Option.some.injEq] at h
        subst h
        exact hp
      · simp at h
    | finish =>
      simp only at h
      split at h
      · simp only [Option.some.injEq] at h
        subst h
        exact hp
      · simp at h
    | worker i =>
      simp only at h
      unfold worker_step at h
      split at h
      · simp at h
      · split at h
        all_goals
          simp only [Option.some.injEq] at h
          subst h
          exact hp
      · rename_i url code hi
        split at h
        · split at h
          · simp only [Option.some.injEq] at h
            subst h
            exact hp
          · rename_i hb
            have hs := hinv.sound _ (mem_of_getElem? hi)
            obtain ⟨b, hb'⟩ := hx url hs.1
            rw [hb'] at hb
            simp at hb
        · simp only [Option.some.injEq] at h
          subst h
          exact hp
      · rename_i bucket hi
        split at h
        · rename_i hcl
          have h1 := undone_pos_wg hinv hi rfl
          have h2 := (hinv.closed hcl).1
          omega
        · split at h
          · simp only [Option.some.injEq] at h
            subst h
            exact hp
          · simp at h
      · rename_i hi
        split at h
        · rename_i hwg
          have h1 := undone_pos_wg hinv hi rfl
          omega
        · simp only [Option.some.injEq] at h
          subst h
          exact hp
      · split at h
        · simp only [Option.some.injEq] at h
          subst h
          exact hp
        · simp at h
      · simp at h

theorem run_no_panic {cfg : Config} {s s' : State} {schedule : List Action}
    (hinv : Inv cfg s) (hx : ∀ u ∈ cfg.urls, ∃ b, bucket_name u = some b)
    (hp : s.panicked = false) (h : run cfg s schedule = some s') : s'.panicked = false := by
  induction schedule generalizing s with
  | nil =>
    simp only [run, Option.some.injEq] at h
    exact h ▸ hp
  | cons a rest ih =>
    simp only [run] at h
    split at h
    · simp at h
    · rename_i s₁ hs₁
      exact ih (inv_step hinv hs₁) (step_no_panic hinv hx hs₁) h

theorem reachable_no_panic {cfg : Config} {s : State}
    (hx : ∀ u ∈ cfg.urls, ∃ b, bucket_name u = some b) (h : Reachable cfg s) :
    s.panicked = false := by
  obtain ⟨schedule, hs⟩ := h
  exact run_no_panic (inv_init cfg) hx rfl hs


theorem past_send_le_one (w : Worker) : w.past_send ≤ 1 := by
  cases w <;> simp [Worker.past_send]

theorem worker_enabled {cfg : Config} {s : State} {i : Nat} {w : Worker}
    (hinv : Inv cfg s) (hi : s.workers[i]? = some w) (hw : w ≠ .exited) :
    ∃ s', worker_step cfg s i = some s' := by
  unfold worker_step
  rw [hi]
  cases w with
  | atGet url =>
    simp only
    cases cfg.get url <;> exact ⟨_, rfl⟩
  | atStatus url code =>
    simp only
    by_cases hc : code = StatusOK
    · rw [if_pos hc]
      cases bucket_name url <;> exact ⟨_, rfl⟩
    · rw [if_neg hc]
      exact ⟨_, rfl⟩
  | atSend bucket =>
    simp only
    by_cases hcl : s.ch_closed = true
    · rw [if_pos hcl]
      exact ⟨_, rfl⟩
    · rw [if_neg hcl]
      have h1 := total_set Worker.past_send hi .atDone
      have h2 := total_le_length Worker.past_send past_send_le_one (s.workers.set i .atDone)
      have h3 := hinv.buffered
      have h4 := hinv.lengths
      simp [Worker.past_send] at h1 h2
      have h5 : s.ch.length < cfg.urls.length := by omega
      rw [if_pos h5]
      exact ⟨_, rfl⟩
  | atDone =>
    simp only
    by_cases hwg : s.wg ≤ 0
    · rw [if_pos hwg]
      exact ⟨_, rfl⟩
    · rw [if_neg hwg]
      exact ⟨_, rfl⟩
  | atRelease =>
    simp only
    have h1 := le_total Worker.holds hi
    have h2 := hinv.sem_eq
    simp [Worker.holds] at h1
    have h3 : 0 < s.sem := by omega
    rw [if_pos h3]
    exact ⟨_, rfl⟩
  | exited => exact absurd rfl hw

theorem step_worker {cfg : Config} {s : State} (i : Nat)
    (hlive : ¬ s.terminated) : step cfg s (.worker i) = worker_step cfg s i := by
  unfold step
  rw [if_neg]
  intro h
  exact hlive (by unfold State.terminated; tauto)

theorem progress {cfg : Config} {s : State} (hinv : Inv cfg s) (hthreads : 1 ≤ cfg.threads)
    (hlive : ¬ s.terminated) : ∃ a s', step cfg s a = some s' := by
  have hguard : ¬ (s.panicked = true ∨ s.main_pc = .exited) := by
    intro h
    exact hlive (by unfold State.terminated; tauto)
  have hworker : ∀ f : Worker → Nat, f .exited = 0 → 0 < total f s.workers →
      ∃ a s', step cfg s a = some s' := by
    intro f hf hpos
    obtain ⟨i, w, hi, hw⟩ := exists_of_total_pos f hpos
    have hne : w ≠ .exited := by
      rintro rfl
      omega
    obtain ⟨s', hs'⟩ := worker_enabled hinv hi hne
    exact ⟨.worker i, s', by rw [step_worker i hlive]; exact hs'⟩
  cases hm : s.main_pc with
  | dispatching =>
    cases hp : s.pending with
    | nil =>
      refine ⟨.start_closer, ?_⟩
      unfold step
      rw [if_neg hguard]
      simp only
      rw [if_pos ⟨hm, hp⟩]
      exact ⟨_, rfl⟩
    | cons url rest =>
      by_cases hlt : s.sem < cfg.threads
      · refine ⟨.dispatch, ?_⟩
        unfold step
        rw [if_neg hguard]
        simp only [hm, hp]
        rw [if_pos hlt]
        exact ⟨_, rfl⟩
      · apply hworker Worker.holds rfl
        have := hinv.sem_eq
        omega
  | collecting =>
    cases hch : s.ch with
    | cons bucket rest =>
      refine ⟨.receive, ?_⟩
      unfold step
      rw [if_neg hguard]
      simp only [hm, hch]
      exact ⟨_, rfl⟩
    | nil =>
      by_cases hcl : s.ch_closed = true
      · refine ⟨.finish, ?_⟩
        unfold step
        rw [if_neg hguard]
        simp only
        rw [if_pos ⟨hm, hch, hcl⟩]
        exact ⟨_, rfl⟩
      · have hnd : s.main_pc ≠ .dispatching := by rw [hm]; simp
        have hnu := (hinv.collecting hnd).2
        cases hc : s.closer_pc with
        | unborn => exact absurd hc hnu
        | closing_stop => exact absurd (hinv.late (Or.inl hc)) hcl
        | finished => exact absurd (hinv.late (Or.inr hc)) hcl
        | waiting =>
          by_cases hwg : s.wg = 0
          · refine ⟨.closer, ?_⟩
            unfold step
            rw [if_neg hguard]
            simp only [hc]
            rw [if_pos hwg, if_neg hcl]
            exact ⟨_, rfl⟩
          · apply hworker Worker.undone rfl
            have := hinv.wg_eq
            omega
  | exited =>
    exact absurd (Or.inl hm) hlive


/-! ## What the invariant gives at the end of a run -/

theorem total_mono {α : Type} {f g : α → Nat} (h : ∀ a, f a ≤ g a) (l : List α) :
    total f l ≤ total g l := by
  induction l with
  | nil => simp
  | cons x xs ih =>
    have := h x
    simp
    omega

theorem total_add_eq_length {α : Type} {f g : α → Nat} (h : ∀ a, f a + g a = 1)
    (l : List α) : total f l + total g l = l.length := by
  induction l with
  | nil => simp
  | cons x xs ih =>
    have := h x
    simp
    omega

theorem eq_zero_of_total_eq_zero {α : Type} {f : α → Nat} {l : List α}
    (h : total f l = 0) : ∀ a ∈ l, f a = 0 := by
  induction l with
  | nil => simp
  | cons x xs ih =>
    simp at h
    intro a ha
    rcases List.mem_cons.mp ha with rfl | ha
    · exact h.1
    · exact ih h.2 a ha

theorem count_eq_total_if {α : Type} [DecidableEq α] (b : α) (l : List α) :
    l.count b = total (fun x => if x = b then 1 else 0) l := by
  induction l with
  | nil => simp
  | cons x xs ih =>
    rw [List.count_cons, ih, total_cons]
    by_cases hx : x = b
    · simp [hx]
      omega
    · simp [hx]

theorem perm_of_total_hit {l₁ l₂ : List GoString}
    (h : ∀ b, total (hit b) l₁ = total (hit b) l₂) : l₁.Perm l₂ := by
  rw [List.perm_iff_count]
  intro b
  rw [count_eq_total_if, count_eq_total_if]
  exact h b

theorem hit_le_one (b x : GoString) : hit b x ≤ 1 := by
  unfold hit
  split <;> omega

theorem name_hit_le_one (b url : GoString) (code : Nat) : name_hit b url code ≤ 1 := by
  unfold name_hit
  split
  · split
    · exact hit_le_one _ _
    · omega
  · omega

theorem url_hit_le_one (cfg : Config) (b url : GoString) : url_hit cfg b url ≤ 1 := by
  unfold url_hit
  split
  · omega
  · exact name_hit_le_one _ _ _

theorem owes_le_undone (cfg : Config) (b : GoString) (w : Worker) :
    w.owes cfg b ≤ w.undone := by
  cases w <;> simp [Worker.owes, Worker.undone]
  · exact url_hit_le_one _ _ _
  · exact name_hit_le_one _ _ _
  · exact hit_le_one _ _

theorem success_names_total (cfg : Config) (b : GoString) :
    total (hit b) (success_names cfg) = total (url_hit cfg b) cfg.urls := by
  unfold success_names
  induction cfg.urls with
  | nil => simp
  | cons u us ih =>
    rw [List.filterMap_cons, total_cons, ← ih]
    unfold url_hit
    cases hg : cfg.get u with
    | err => simp
    | status code =>
      by_cases hc : code = StatusOK
      · subst hc
        cases hb : bucket_name u <;> simp [name_hit, hb]
      · simp [name_hit, hc]

theorem url_hit_of_fail {cfg : Config} {url : GoString}
    (h : cfg.get url ≠ .status StatusOK) (b : GoString) : url_hit cfg b url = 0 := by
  unfold url_hit
  cases hg : cfg.get url with
  | err => rfl
  | status code =>
    have hc : code ≠ StatusOK := by
      rintro rfl
      exact h hg
    simp [name_hit, hc]

theorem total_url_hit_of_fail {cfg : Config} (l : List GoString)
    (h : ∀ u ∈ l, cfg.get u ≠ .status StatusOK) (b : GoString) :
    total (url_hit cfg b) l = 0 := by
  induction l with
  | nil => simp
  | cons u us ih =>
    simp only [total_cons]
    rw [url_hit_of_fail (h u (List.mem_cons_self _ _)),
      ih (fun v hv => h v (List.mem_cons_of_mem _ hv))]

theorem written_perm_of_exited {cfg : Config} {s : State} (hinv : Inv cfg s)
    (hm : s.main_pc = .exited) : s.written.Perm (success_names cfg) := by
  apply perm_of_total_hit
  intro b
  rw [success_names_total]
  obtain ⟨hch, hcl⟩ := hinv.finished hm
  obtain ⟨hwg, hp⟩ := hinv.closed hcl
  have h1 := hinv.flow b
  have h2 := hinv.wg_eq
  have h3 := total_mono (owes_le_undone cfg b) s.workers
  rw [hch, hp] at h1
  simp at h1
  omega

theorem written_nil_of_all_fail {cfg : Config} {s : State} (hinv : Inv cfg s)
    (h : ∀ u ∈ cfg.urls, cfg.get u ≠ .status StatusOK) : s.written = [] := by
  cases hw : s.written with
  | nil => rfl
  | cons x xs =>
    have h1 := hinv.flow x
    rw [total_url_hit_of_fail cfg.urls h x, hw] at h1
    simp [hit] at h1

theorem length_filterMap_names (get : GoString → Outcome) (l : List GoString)
    (hx : ∀ u ∈ l, ∃ b, bucket_name u = some b) :
    (l.filterMap (fun url =>
        if get url = .status StatusOK then bucket_name url else none)).length
      = (l.filter (fun u => decide (get u = .status StatusOK))).length := by
  induction l with
  | nil => simp
  | cons u us ih =>
    have ih' := ih (fun v hv => hx v (List.mem_cons_of_mem _ hv))
    obtain ⟨b, hb⟩ := hx u (List.mem_cons_self _ _)
    by_cases hg : get u = .status StatusOK
    · simp [List.filterMap_cons, List.filter_cons, hg, hb, ih']
    · simp [List.filterMap_cons, List.filter_cons, hg, ih']

theorem length_success_names {cfg : Config}
    (hx : ∀ u ∈ cfg.urls, ∃ b, bucket_name u = some b) :
    (success_names cfg).length
      = (cfg.urls.filter (fun u => decide (cfg.get u = .status StatusOK))).length :=
  length_filterMap_names cfg.get cfg.urls hx

theorem exists_complete_run {cfg : Config} (hthreads : 1 ≤ cfg.threads)
    (hx : ∀ u ∈ cfg.urls, ∃ b, bucket_name u = some b) (n : Nat) :
    ∀ s, Inv cfg s → s.panicked = false → s.fuel ≤ n →
      ∃ schedule s', run cfg s schedule = some s' ∧ s'.main_pc = .exited := by
  induction n with
  | zero =>
    intro s hinv hp hn
    by_cases hm : s.main_pc = .exited
    · exact ⟨[], s, rfl, hm⟩
    · have hlive : ¬ s.terminated := by
        unfold State.terminated
        simp [hm, hp]
      obtain ⟨a, s₁, hs₁⟩ := progress hinv hthreads hlive
      have := step_fuel hs₁
      omega
  | succ k ih =>
    intro s hinv hp hn
    by_cases hm : s.main_pc = .exited
    · exact ⟨[], s, rfl, hm⟩
    · have hlive : ¬ s.terminated := by
        unfold State.terminated
        simp [hm, hp]
      obtain ⟨a, s₁, hs₁⟩ := progress hinv hthreads hlive
      have hf := step_fuel hs₁
      obtain ⟨schedule, s₂, hrun, hex⟩ :=
        ih s₁ (inv_step hinv hs₁) (step_no_panic hinv hx hs₁) (by omega)
      exact ⟨a :: schedule, s₂, by simp [run, hs₁, hrun], hex⟩

theorem classified_of_done {cfg : Config} {s : State} (hinv : Inv cfg s)
    (hwg : s.wg = 0) (hp : s.pending = []) :
    s.counters.total_successes + s.counters.total_failures = cfg.urls.length := by
  have h1 := hinv.counted
  have h2 := hinv.wg_eq
  have h3 := hinv.lengths
  have h4 : ∀ w : Worker, w.classified ≤ 1 := by
    intro w
    cases w <;> simp [Worker.classified]
  have h5 : ∀ w : Worker, 1 ≤ w.classified + w.undone := by
    intro w
    cases w <;> simp [Worker.classified, Worker.undone]
  have h6 := total_le_length Worker.classified h4 s.workers
  have h7 : s.workers.length ≤ total (fun w => w.classified + w.undone) s.workers := by
    have := total_mono (f := fun _ => 1) (g := fun w => w.classified + w.undone) h5 s.workers
    have hl : total (fun _ : Worker => 1) s.workers = s.workers.length := by
      generalize s.workers = ws
      induction ws with
      | nil => simp
      | cons x xs ih => simp [ih]; omega
    omega
  have h8 : total (fun w => w.classified + w.undone) s.workers
      = total Worker.classified s.workers + total Worker.undone s.workers := by
    generalize s.workers = ws
    induction ws with
    | nil => simp
    | cons x xs ih => simp [ih]; omega
  rw [hp] at h3
  simp at h3
  omega


/-! ## The claims -/

/-- C1: for every wordlist of `n` words and every modifier list of `m` modifiers
(repeats allowed, `m` may be 0) the candidate list built by the generation loop has
exactly `n * (1 + 4 * m)` entries; in particular `["alpha", "beta"]` with the built-in
modifier list, which has `M = 138` entries, gives `2 * (1 + 4 * M)` candidates. -/
theorem candidate_count :
    (∀ words modifiers : List GoString,
      (generate words modifiers).length = words.length * (1 + 4 * modifiers.length)) ∧
    (generate [str ("alpha"), str ("beta")] (load_modifiers none)).length
      = 2 * (1 + 4 * (load_modifiers none).length) ∧
    (load_modifiers none).length = 138 := by
  refine ⟨fun ws ms => ?_, ?_, ?_⟩
  · rw [generate_eq_spec, length_spec_candidates]
  · rw [generate_eq_spec, length_spec_candidates]
    simp only [List.length_cons, List.length_nil]
  · simp [load_modifiers, default_modifiers, default_modifier_literals]

/-- C2: for every wordlist and modifier list the candidate list is the concatenation, in
wordlist order, of one block per word `w`: the candidate for `w`, then for each modifier
`d` in modifier-list order the candidates for `d-w`, `dw`, `w-d`, `wd` in that order;
the candidate for a name `s` is `"https://" ++ s ++ ".s3.amazonaws.com/?uploads="`. -/
theorem candidates_in_order (words modifiers : List GoString) :
    generate words modifiers
      = words.flatMap (fun w =>
          candidate w :: modifiers.flatMap (fun d =>
            [candidate (d ++ str ("-") ++ w), candidate (d ++ w),
             candidate (w ++ str ("-") ++ d), candidate (w ++ d)])) ∧
    ∀ s, candidate s = str ("https://") ++ s ++ str (".s3.amazonaws.com/?uploads=") := by
  refine ⟨?_, fun s => rfl⟩
  rw [generate_eq_spec]
  rfl

/-- C3: for every candidate list of the generator, every probing function, every budget
of at least 1 and every schedule (completion order): the run never panics, never gets
stuck before `main` returns, every step uses up fuel (so every run ends), a complete run
exists, and when `main` has returned the names received from `ch` and written out are,
as a multiset, exactly the names extracted from the candidates answered with 200, one per
such candidate; when every probe fails nothing is ever written. -/
theorem collector_emits_successes (cfg : Config) (words modifiers : List GoString)
    (hurls : cfg.urls = generate words modifiers) (hthreads : 1 ≤ cfg.threads) :
    (∀ s, Reachable cfg s →
      s.panicked = false ∧
      (s.main_pc ≠ .exited → ∃ a s', step cfg s a = some s') ∧
      (s.main_pc = .exited →
        (s.written : Multiset GoString) = (success_names cfg : Multiset GoString)) ∧
      ((∀ u ∈ cfg.urls, cfg.get u ≠ .status StatusOK) → s.written = [])) ∧
    (∀ s a s', step cfg s a = some s' → s'.fuel < s.fuel) ∧
    (∃ schedule s, run cfg (init cfg) schedule = some s ∧ s.main_pc = .exited) ∧
    (success_names cfg).length
      = (cfg.urls.filter (fun u => decide (cfg.get u = .status StatusOK))).length := by
  have hx : ∀ u ∈ cfg.urls, ∃ b, bucket_name u = some b := by
    intro u hu
    rw [hurls] at hu
    exact bucket_name_generate hu
  refine ⟨fun s hs => ?_, fun s a s' h => step_fuel h, ?_, length_success_names hx⟩
  · have hinv := inv_reachable hs
    have hp := reachable_no_panic hx hs
    refine ⟨hp, fun hm => ?_, fun hm => ?_, written_nil_of_all_fail hinv⟩
    · apply progress hinv hthreads
      unfold State.terminated
      simp [hm, hp]
    · exact Multiset.coe_eq_coe.mpr (written_perm_of_exited hinv hm)
  · exact exists_complete_run hthreads hx (init cfg).fuel (init cfg) (inv_init cfg) rfl
      (Nat.le_refl _)

/-- Witness of C3: one word, no modifiers, a network that answers 200, budget 1. -/
theorem collector_emits_successes_witness :
    (1 ≤ 1) ∧
    ∃ schedule s,
      run ⟨fun _ => Outcome.status 200, 1, generate [str ("a")] []⟩
        (init ⟨fun _ => Outcome.status 200, 1, generate [str ("a")] []⟩) schedule = some s ∧
      s.main_pc = .exited :=
  ⟨Nat.le_refl 1,
    (collector_emits_successes ⟨fun _ => Outcome.status 200, 1, generate [str ("a")] []⟩
      [str ("a")] [] rfl (Nat.le_refl 1)).2.2.1⟩

/-- C4: whatever `http.Get` returns (transport error, 200, another status), a call of
`check_url` increments exactly one of `total_successes` and `total_failures`, by exactly
1 (the former exactly on a 200); so from zeroed counters, after any sequence of `n`
probes, and in any run once all `n` dispatched probes have signalled the wait group,
`total_successes + total_failures = n`; if every probe fails, `total_failures = n` and
`total_successes = 0`. -/
theorem counters_partition_probes :
    (∀ got url k,
      ((check_url got url k).counters.total_successes = k.total_successes + 1 ∧
        (check_url got url k).counters.total_failures = k.total_failures ∧
        got = .status StatusOK) ∨
      ((check_url got url k).counters.total_successes = k.total_successes ∧
        (check_url got url k).counters.total_failures = k.total_failures + 1 ∧
        got ≠ .status StatusOK)) ∧
    (∀ probes : List (Outcome × GoString),
      (run_probes probes Counters.zero).total_successes
        + (run_probes probes Counters.zero).total_failures = probes.length ∧
      ((∀ p ∈ probes, p.1 ≠ .status StatusOK) →
        (run_probes probes Counters.zero).total_failures = probes.length ∧
        (run_probes probes Counters.zero).total_successes = 0)) ∧
    (∀ cfg s, Reachable cfg s → s.pending = [] → s.wg = 0 →
      s.counters.total_successes + s.counters.total_failures = cfg.urls.length ∧
      ((∀ u ∈ cfg.urls, cfg.get u ≠ .status StatusOK) →
        s.counters.total_failures = cfg.urls.length ∧ s.counters.total_successes = 0)) := by
  refine ⟨check_url_counters, fun probes => ?_, fun cfg s hs hp hwg => ?_⟩
  · have h1 := run_probes_sum probes Counters.zero
    simp only [Counters.zero] at h1 ⊢
    refine ⟨by omega, fun hall => ?_⟩
    have h2 := run_probes_all_fail probes Counters.zero hall
    simp only [Counters.zero] at h2
    omega
  · have hinv := inv_reachable hs
    have h1 := classified_of_done hinv hwg hp
    refine ⟨h1, fun hall => ?_⟩
    have h2 := hinv.no_success hall
    omega

/-- Witness of C4: three probes that all fail (a transport error, a 403, a 404). -/
theorem counters_partition_probes_witness :
    (∀ p ∈ [(Outcome.err, str ("u")), (Outcome.status 403, str ("v")),
        (Outcome.status 404, str ("w"))], p.1 ≠ Outcome.status StatusOK) ∧
    (run_probes [(Outcome.err, str ("u")), (Outcome.status 403, str ("v")),
        (Outcome.status 404, str ("w"))] Counters.zero).total_failures = (3 : Nat) ∧
    (run_probes [(Outcome.err, str ("u")), (Outcome.status 403, str ("v")),
        (Outcome.status 404, str ("w"))] Counters.zero).total_successes = 0 :=
  ⟨by decide,
    (counters_partition_probes.2.1 [(Outcome.err, str ("u")), (Outcome.status 403, str ("v")),
        (Outcome.status 404, str ("w"))]).2 (by decide)⟩

/-- C5, counterexample: with `-t 10` and the soft limit `rlimit.Cur = 2^64 - 1`
(`RLIM_INFINITY`), `int(rlimit.Cur)` is `-1`, so `threads` ends as `-11`, while
`min(r, c - 10)` is `10`. -/
theorem budget_min_fails_at_infinity :
    resolve_threads 10 18446744073709551615 = -11 ∧
      min (10 : Int) (((18446744073709551615 : Nat) : Int) - 10) = 10 ∧
      resolve_threads 10 18446744073709551615
        ≠ min (10 : Int) (((18446744073709551615 : Nat) : Int) - 10) := by
  decide

/-- C5, amended: for every requested thread count `r` and every file-descriptor ceiling
`c` below `2^63` (a ceiling that `int(rlimit.Cur)` represents exactly), the final value
of `threads` equals `min(r, c - 10)`: the reserve is the fixed margin 10 and the budget
exceeds neither the requested count nor the ceiling minus the reserve. -/
theorem budget_eq_min (r : Int) (c : Nat) (hc : c < 2 ^ 63) :
    resolve_threads r c = min r ((c : Int) - 10) ∧
      resolve_threads r c ≤ r ∧ resolve_threads r c ≤ (c : Int) - 10 := by
  rw [resolve_threads_eq_min, max_threads_of_lt hc]
  omega

/-- Witness of C5 (amended): `-t 10` under the common soft limit 1024. -/
theorem budget_eq_min_witness :
    (1024 : Nat) < 2 ^ 63 ∧
      (resolve_threads 10 1024 = min 10 (((1024 : Nat) : Int) - 10) ∧
        resolve_threads 10 1024 ≤ 10 ∧ resolve_threads 10 1024 ≤ ((1024 : Nat) : Int) - 10) :=
  ⟨by norm_num, budget_eq_min 10 1024 (by norm_num)⟩

/-- C6, counterexample: `-t 0` under the soft limit 1024 leaves `threads = 0`, so
`1 <= budget` fails. -/
theorem budget_lower_bound_fails :
    resolve_threads 0 1024 = 0 ∧
      ¬ (1 ≤ resolve_threads 0 1024 ∧
          resolve_threads 0 1024 ≤ min 0 (((1024 : Nat) : Int) - 10)) := by
  decide

/-- C6, amended: for every requested thread count `r` and every ceiling `c`, the
resolved budget satisfies `budget <= min(r, c - 10)`; the lower bound `1 <= budget` is
not enforced by the code and holds exactly when `1 <= r` and `11 <= c` (for a ceiling
below `2^63`). -/
theorem budget_bounds (r : Int) (c : Nat) :
    resolve_threads r c ≤ min r ((c : Int) - 10) ∧
      (c < 2 ^ 63 → (1 ≤ resolve_threads r c ↔ 1 ≤ r ∧ 11 ≤ c)) := by
  refine ⟨?_, fun hc => ?_⟩
  · have h := max_threads_le c
    rw [resolve_threads_eq_min]
    omega
  · rw [resolve_threads_eq_min, max_threads_of_lt hc]
    omega

/-- Witness of C6 (amended): the default `-t 10` under the soft limit 1024. -/
theorem budget_bounds_witness :
    (1024 : Nat) < 2 ^ 63 ∧ (1 ≤ resolve_threads 10 1024 ↔ (1 : Int) ≤ 10 ∧ 11 ≤ 1024) :=
  ⟨by norm_num, (budget_bounds 10 1024).2 (by norm_num)⟩


/-- C7, counterexample: one candidate whose probe fails in transport, budget 1.  After
the schedule dispatch, start of the closing goroutine, `http.Get` returns, `wg.Done()`,
`close(ch)`, end of `range ch`, the result channel is closed and drained and `main` has
returned, with one slot acquired and none released: the worker has signalled the wait
group and its deferred `<-sem` has not run. -/
theorem slot_held_at_completion :
    ∃ s, run ⟨fun _ => Outcome.err, 1, generate [str ("a")] []⟩
        (init ⟨fun _ => Outcome.err, 1, generate [str ("a")] []⟩)
        [.dispatch, .start_closer, .worker 0, .worker 0, .closer, .finish] = some s ∧
      s.main_pc = .exited ∧ s.ch = [] ∧ s.ch_closed = true ∧ s.panicked = false ∧
      s.workers = [.atRelease] ∧ s.sem = 1 ∧ s.acquires = 1 ∧ s.releases = 0 ∧
      s.acquires ≠ s.releases :=
  ⟨_, rfl, rfl, rfl, rfl, rfl, rfl, rfl, rfl, rfl, by decide⟩

/-- C7, amended: in every reachable state at most `budget` slots are outstanding; every
dispatched candidate has acquired exactly one slot and the release events are exactly
the workers that have ended, so `acquires = releases + slots held`, and the two counts
agree exactly when no slot is held; a worker that has not ended can always take its next
step while the process lives, on every path through `check_url`; once the result channel
is closed all candidates have acquired their slot and every worker has released it or
has only the deferred release left. -/
theorem slots_paired (cfg : Config) (s : State) (h : Reachable cfg s) :
    s.sem ≤ cfg.threads ∧
    s.acquires = s.workers.length ∧
    s.workers.length + s.pending.length = cfg.urls.length ∧
    s.releases = total Worker.gone s.workers ∧
    s.sem = total Worker.holds s.workers ∧
    s.acquires = s.releases + s.sem ∧
    (s.acquires = s.releases ↔ s.sem = 0) ∧
    (¬ s.terminated → ∀ (i : Nat) (w : Worker), s.workers[i]? = some w → w ≠ .exited →
      ∃ s', step cfg s (.worker i) = some s') ∧
    (s.ch_closed = true →
      s.acquires = cfg.urls.length ∧ ∀ w ∈ s.workers, w = .atRelease ∨ w = .exited) := by
  have hinv := inv_reachable h
  have h1 := hinv.sem_eq
  have h2 := hinv.acquires_eq
  have h3 := hinv.releases_eq
  have h4 := hinv.lengths
  have h5 : total Worker.holds s.workers + total Worker.gone s.workers = s.workers.length :=
    total_add_eq_length (fun w => by cases w <;> rfl) s.workers
  refine ⟨hinv.sem_le, h2, h4, h3, h1, by omega, by omega, ?_, ?_⟩
  · intro hlive i w hi hw
    obtain ⟨s', hs'⟩ := worker_enabled hinv hi hw
    exact ⟨s', by rw [step_worker i hlive]; exact hs'⟩
  · intro hcl
    obtain ⟨hwg, hp⟩ := hinv.closed hcl
    have h6 := hinv.wg_eq
    rw [hp] at h4
    simp only [List.length_nil, Nat.add_zero] at h4
    refine ⟨by omega, fun w hw => ?_⟩
    have h7 : total Worker.undone s.workers = 0 := by omega
    have h8 := eq_zero_of_total_eq_zero h7 w hw
    cases w <;> simp [Worker.undone] at h8 ⊢

/-- Witness of C7 (amended): two candidates under budget 2, at the moment `ch` has been
closed: two acquires, one release, one slot still held by the worker that has only its
deferred release left. -/
theorem slots_paired_witness :
    Reachable two_failing at_close ∧
    at_close.ch_closed = true ∧ ¬ at_close.terminated ∧
    at_close.acquires = 2 ∧ at_close.releases = 1 ∧ at_close.sem = 1 ∧
    (at_close.sem ≤ two_failing.threads ∧
      at_close.acquires = at_close.workers.length ∧
      at_close.workers.length + at_close.pending.length = two_failing.urls.length ∧
      at_close.releases = total Worker.gone at_close.workers ∧
      at_close.sem = total Worker.holds at_close.workers ∧
      at_close.acquires = at_close.releases + at_close.sem ∧
      (at_close.acquires = at_close.releases ↔ at_close.sem = 0) ∧
      (¬ at_close.terminated → ∀ (i : Nat) (w : Worker),
        at_close.workers[i]? = some w → w ≠ .exited →
          ∃ s', step two_failing at_close (.worker i) = some s') ∧
      (at_close.ch_closed = true →
        at_close.acquires = two_failing.urls.length ∧
          ∀ w ∈ at_close.workers, w = .atRelease ∨ w = .exited)) :=
  ⟨⟨until_close, rfl⟩, rfl, by simp [State.terminated, at_close], rfl, rfl, rfl,
    slots_paired two_failing at_close ⟨until_close, rfl⟩⟩

/-- C8: on the candidate for a name `s`, line 68 returns the part of `s` before its
first `"."`, which is `s` only when `s` has no `"."`; for the word `a.b` (candidate
`https://a.b.s3.amazonaws.com/?uploads=`) it returns `a`, not the substituted name. -/
theorem bucket_name_cut_at_dot :
    bucket_name (sprintf1 (str ("a.b"))) = some (str ("a")) ∧
    str ("a") ≠ str ("a.b") ∧
    sprintf1 (str ("a.b")) = str ("https://a.b.s3.amazonaws.com/?uploads=") ∧
    (∀ s, bucket_name (candidate s) = some (before_first dot s)) ∧
    (∀ s, dot ∉ s → bucket_name (candidate s) = some s) := by
  refine ⟨by decide, by decide, by decide, bucket_name_candidate, fun s hs => ?_⟩
  rw [bucket_name_candidate, before_first_of_not_mem s hs]

/-- C9: the value `display_stats` prints as `Current threads` is `threads - len(sem)`,
the number of free slots, not the number `h` of held slots: with budget 2 and both of
two candidates dispatched and inside `http.Get` (`h = 2`), it is 0. -/
theorem current_threads_counts_free_slots :
    (∃ s, run ⟨fun _ => Outcome.err, 2, generate [str ("a"), str ("b")] []⟩
        (init ⟨fun _ => Outcome.err, 2, generate [str ("a"), str ("b")] []⟩)
        [.dispatch, .dispatch] = some s ∧
      s.sem = 2 ∧
      s.workers = [.atGet (sprintf1 (str ("a"))), .atGet (sprintf1 (str ("b")))] ∧
      sampled_current_threads
        ⟨fun _ => Outcome.err, 2, generate [str ("a"), str ("b")] []⟩ s = 0) ∧
    (∀ (cfg : Config) (s : State),
      sampled_current_threads cfg s = (cfg.threads : Int) - (s.sem : Int)) ∧
    current_threads 10 3 = 7 :=
  ⟨⟨_, rfl, rfl, rfl, rfl⟩, fun _ _ => rfl, by decide⟩

/-- C10: on every candidate of the generator, for any wordlist and modifier list (empty
words, empty modifiers and `"."` inside them included), the extraction
`strings.Split(url, ".")[0][8:]` stays in range: the split has a first element, that
element begins with `"https://"` and so has length at least 8, and the extraction
returns a value instead of panicking. -/
theorem extraction_in_range (words modifiers : List GoString) (url : GoString) :
    url ∈ generate words modifiers →
      ∃ first rest, strings_Split url dot = first :: rest ∧
        index0 (strings_Split url dot) = some first ∧
        str ("https://") <+: first ∧ 8 ≤ first.length ∧
        slice_from first 8 = some (first.drop 8) ∧
        bucket_name url = some (first.drop 8) := by
  intro h
  obtain ⟨s, rfl⟩ := mem_generate h
  obtain ⟨rest, hs⟩ := strings_Split_candidate s
  have hlen : 8 ≤ (scheme ++ before_first dot s).length := by simp [scheme]
  have h8 : scheme.length = 8 := rfl
  refine ⟨_, rest, hs, by simp [index0, hs], ?_, hlen, by simp [slice_from, h8], ?_⟩
  · rw [str_scheme]; exact List.prefix_append _ _
  · simp [bucket_name, index0, hs, slice_from, h8]

/-- Witness of C10: the candidate of the dotted word `a.b`, with the empty word and an
empty modifier in the lists. -/
theorem extraction_in_range_witness :
    sprintf1 (str ("a.b")) ∈ generate [str (""), str ("a.b")] [str ("")] ∧
    ∃ first rest, strings_Split (sprintf1 (str ("a.b"))) dot = first :: rest ∧
        index0 (strings_Split (sprintf1 (str ("a.b"))) dot) = some first ∧
        str ("https://") <+: first ∧ 8 ≤ first.length ∧
        slice_from first 8 = some (first.drop 8) ∧
        bucket_name (sprintf1 (str ("a.b"))) = some (first.drop 8) :=
  ⟨by decide,
    extraction_in_range [str (""), str ("a.b")] [str ("")] (sprintf1 (str ("a.b"))) (by decide)⟩
end S3Scanner
